import Mathlib

/-!
Verification of the workflow graph engine of the `mmc-tui` terminal editor
(`src/window/flow.ts`, `src/flow/graph.ts`, `src/flow/edge.ts`,
`src/flow/registry.ts`).

The engine is embedded shallowly:

* `NodeInst` models a node renderable; its `key` field models JavaScript
  object identity (`===` on node objects is translated as equality of `key`),
  its `nid` field is the object's `id` string.
* `CanvasState` gathers the mutable fields of the `FlowPane` class that the
  graph engine touches: `nodes`, `nodeDetails`, `edges`,
  `pendingConnectionNode`, the per-box `isSelected` flags, and the
  `isWorkflowRunning` guard.
* `connectNodesR` translates `FlowPane.connectNodes`, instrumented with a
  result tag naming the exit taken; `connectNodes` is its state part.
* `kahnExecutionOrder` translates the topological-sort portion of
  `FlowPane.runWorkflow` (a JavaScript `Map` keyed by node objects is
  modelled by a key list in insertion order plus a value function).
* `runWorkflow` translates `FlowPane.runWorkflow` into a state transformer
  that also emits the list of user-visible actions (status messages, the
  run spinner, per-node placeholder highlights, the single POST to
  `<backend>/run`); `console.log` calls are not modelled.
* `screenToWorld` / `worldToScreen` translate the coordinate transform with
  exact rational arithmetic; `Math.round` is Mathlib's `round`
  (both are floor (x + 1/2)).
-/

/-- `NodeSpec` from `src/flow/registry.ts`: connectivity rule of a node type
(the `description` field plays no role in the engine and is omitted). -/
structure NodeSpec where
  maxIn : Nat
  maxOut : Nat
  allowedOutgoing : List String
  allowedIncoming : List String
deriving DecidableEq, Repr

/-- `FlowNodeRegistry` from `src/flow/registry.ts`. -/
def FlowNodeRegistry : List (String × NodeSpec) :=
  [ ("Build",    { maxIn := 0, maxOut := 1,
                   allowedOutgoing := ["Compute"],  allowedIncoming := [] }),
    ("Compute",  { maxIn := 1, maxOut := 1,
                   allowedOutgoing := ["Validate"], allowedIncoming := ["Build"] }),
    ("Validate", { maxIn := 1, maxOut := 0,
                   allowedOutgoing := [],           allowedIncoming := ["Compute"] }) ]

/-- A node renderable (`SelectableBoxRenderable`).  `key` models the object's
identity (two `NodeInst` values denote the same JavaScript object exactly when
their `key`s agree), `nid` is the renderable's `id` string. -/
structure NodeInst where
  key : Nat
  nid : String
deriving DecidableEq, Repr

/-- The `{ type, label }` record stored in `FlowPane.nodeDetails`. -/
structure NodeDetail where
  dtype : String
  dlabel : String
deriving DecidableEq, Repr

/-- The state of one `FlowPane` canvas, restricted to the fields the graph
engine reads or writes.  `details` models the `nodeDetails` map (keyed by node
identity), `selected` the set of keys of nodes whose `DraggableBox` has its
`isSelected` flag set, `running` the `isWorkflowRunning` guard, and `nextKey`
the allocator for fresh object identities. -/
structure CanvasState where
  registry : List (String × NodeSpec)
  paneId : String
  nodes : List NodeInst
  details : List (Nat × NodeDetail)
  edges : List (NodeInst × NodeInst)
  pending : Option NodeInst
  selected : List Nat
  running : Bool
  nodeIndex : Nat
  nextKey : Nat
deriving DecidableEq, Repr

/-- Registry lookup `this.nodeDefinitions[type]`. -/
def lookupReg (reg : List (String × NodeSpec)) (t : String) : Option NodeSpec :=
  (reg.find? (fun p => p.1 = t)).map (·.2)

/-- `this.nodeDetails.get(node)` (the map is keyed by object identity). -/
def lookupDetail (s : CanvasState) (n : NodeInst) : Option NodeDetail :=
  (s.details.find? (fun p => p.1 = n.key)).map (·.2)

/-- `FlowPane.edgeKey`: the string `` `${a.id}->${b.id}` ``. -/
def edgeKey (a b : NodeInst) : String :=
  a.nid ++ "->" ++ b.nid

/-- Exit points of `FlowPane.connectNodes`, in source order. -/
inductive ConnectResult where
  | missingDetail
  | missingDefinition
  | outgoingTypeNotAllowed
  | incomingTypeNotAllowed
  | outgoingCapacityExceeded
  | incomingCapacityExceeded
  | alreadyConnected
  | connected
deriving DecidableEq, Repr

/-- `FlowPane.connectNodes(from, to)`, instrumented with the exit taken.
Every rejecting exit returns the state unchanged; the final exit appends the
edge and clears the `isSelected` flag of both endpoints
(`setSelected(false)`). -/
def connectNodesR (s : CanvasState) (f t : NodeInst) : ConnectResult × CanvasState :=
  match lookupDetail s f, lookupDetail s t with
  | some fd, some td =>
    match lookupReg s.registry fd.dtype, lookupReg s.registry td.dtype with
    | some fdef, some tdef =>
      if ¬ fdef.allowedOutgoing.contains td.dtype then
        (.outgoingTypeNotAllowed, s)
      else if ¬ tdef.allowedIncoming.contains fd.dtype then
        (.incomingTypeNotAllowed, s)
      else if (s.edges.filter (fun e => e.1.key = f.key)).length ≥ fdef.maxOut then
        (.outgoingCapacityExceeded, s)
      else if (s.edges.filter (fun e => e.2.key = t.key)).length ≥ tdef.maxIn then
        (.incomingCapacityExceeded, s)
      else if s.edges.any (fun e => edgeKey e.1 e.2 = edgeKey f t) then
        (.alreadyConnected, s)
      else
        (.connected,
         { s with
            edges := s.edges ++ [(f, t)],
            selected := (s.selected.filter (· ≠ f.key)).filter (· ≠ t.key) })
    | _, _ => (.missingDefinition, s)
  | _, _ => (.missingDetail, s)

/-- `FlowPane.connectNodes` as a plain state transformer. -/
def connectNodes (s : CanvasState) (f t : NodeInst) : CanvasState :=
  (connectNodesR s f t).2

/-- `FlowPane.handleNodeSelection`. -/
def handleNodeSelection (s : CanvasState) (n : NodeInst) : CanvasState :=
  match s.pending with
  | some p =>
      if p.key ≠ n.key then
        { connectNodes s p n with pending := none }
      else
        { s with pending := some n }
  | none => { s with pending := some n }

/-- `FlowPane.handleNodeDeselection`. -/
def handleNodeDeselection (s : CanvasState) (n : NodeInst) : CanvasState :=
  if s.pending.any (fun p => p.key = n.key) then
    { s with pending := none }
  else
    s

/-- The `"down"` branch of `DraggableBox.onMouse` (`src/flow/graph.ts`):
`setSelected(this, !isSelected)` followed by `onSelect` / `onDeselect`, which
`FlowPane` wires to `handleNodeSelection` / `handleNodeDeselection`. -/
def clickDown (s : CanvasState) (n : NodeInst) : CanvasState :=
  if s.selected.contains n.key then
    handleNodeDeselection { s with selected := s.selected.filter (· ≠ n.key) } n
  else
    handleNodeSelection { s with selected := s.selected ++ [n.key] } n

/-- The deselection part of the `"drag-end"` branch of `DraggableBox.onMouse`:
`setSelected(this, false)` followed by `onDeselect`. -/
def dragEnd (s : CanvasState) (n : NodeInst) : CanvasState :=
  handleNodeDeselection { s with selected := s.selected.filter (· ≠ n.key) } n

/-- `FlowPane.createNodeFromSelection(value)` restricted to the graph model:
allocates a fresh renderable, registers it in `nodes` and `nodeDetails`. -/
def createNode (s : CanvasState) (value : String) : CanvasState :=
  let idx := s.nodeIndex + 1
  let nodeId := s.paneId ++ "-" ++ value.toLower ++ "-" ++ toString idx
  let nodeLabel := value.toLower ++ " #" ++ toString idx
  let n : NodeInst := { key := s.nextKey, nid := nodeId }
  { s with
      nodeIndex := idx,
      nextKey := s.nextKey + 1,
      nodes := s.nodes ++ [n],
      details := s.details ++ [(n.key, { dtype := value, dlabel := nodeLabel })] }

/-- Key-list of the `inDegree` map built in `FlowPane.runWorkflow`: a
JavaScript `Map` keeps keys in insertion order, so inserting preserves the
first occurrence of each key. -/
def insKey (ks : List NodeInst) (n : NodeInst) : List NodeInst :=
  if ks.any (fun k => k.key = n.key) then ks else ks ++ [n]

/-- Keys of the `inDegree` map after `runWorkflow` scans nodes and edges:
all nodes in creation order, then any edge targets not among them. -/
def inDegKeys (nodes : List NodeInst) (edges : List (NodeInst × NodeInst)) :
    List NodeInst :=
  edges.foldl (fun ks e => insKey ks e.2) (nodes.foldl insKey [])

/-- Value of the `inDegree` map after the edge scan: number of edges
targeting the key (node keys start at `0` and are incremented once per
incoming edge; other targets start from the `?? 0` default). -/
def initInDeg (edges : List (NodeInst × NodeInst)) (k : Nat) : Int :=
  ((edges.filter (fun e => e.2.key = k)).length : Int)

/-- The `adjacency` map of `runWorkflow`: out-neighbors of a node, pushed in
edge-scan order. -/
def adjOf (edges : List (NodeInst × NodeInst)) (c : NodeInst) : List NodeInst :=
  (edges.filter (fun e => e.1.key = c.key)).map (·.2)

/-- The `neighbors.forEach` body of the Kahn loop: decrement each
out-neighbor's entry, enqueueing a neighbor exactly when its entry reaches
`0`. -/
def decNeighbors (ts : List NodeInst) (deg : Nat → Int) (queue : List NodeInst) :
    (Nat → Int) × List NodeInst :=
  match ts with
  | [] => (deg, queue)
  | t :: rest =>
      let r := deg t.key - 1
      decNeighbors rest (fun k => if k = t.key then r else deg k)
        (if r = 0 then queue ++ [t] else queue)

/-- The `while (queue.length > 0)` loop of `runWorkflow`.  The source loop
always terminates (each key is enqueued at most once); the embedding carries
explicit fuel, shown unconsumed at every call site the theorems use. -/
def kahnLoop (adj : NodeInst → List NodeInst) :
    Nat → List NodeInst → (Nat → Int) → List NodeInst → List NodeInst
  | _, [], _, order => order
  | 0, _ :: _, _, order => order
  | fuel + 1, c :: rest, deg, order =>
      let p := decNeighbors (adj c) deg rest
      kahnLoop adj fuel p.2 p.1 (order ++ [c])

/-- The topological sort computed by `FlowPane.runWorkflow` before its
fallback check: seed the queue with all keys of in-degree zero in map order,
then run the Kahn loop. -/
def kahnExecutionOrder (nodes : List NodeInst)
    (edges : List (NodeInst × NodeInst)) : List NodeInst :=
  let keys := inDegKeys nodes edges
  let queue0 := keys.filter (fun n => initInDeg edges n.key = 0)
  kahnLoop (adjOf edges) keys.length queue0 (initInDeg edges) []

/-- `executionOrder` as `runWorkflow` leaves it: the Kahn order, replaced by
the plain node list (creation order) when the sort did not cover every
node. -/
def executionOrder (nodes : List NodeInst)
    (edges : List (NodeInst × NodeInst)) : List NodeInst :=
  let order := kahnExecutionOrder nodes edges
  if order.length ≠ nodes.length then nodes else order

/-- User-visible actions emitted by `FlowPane.runWorkflow` (`console.log`
lines are not modelled).  `placeholder` is one `runNodePlaceholder` call with
its 1-based step and the total; `remoteRun` is the single
`POST <backend>/run` of `sendRunRequest`, which carries no body. -/
inductive RunAction where
  | setStatus (msg : String)
  | spinnerStart
  | placeholder (key : Nat) (step total : Nat)
  | remoteRun
  | spinnerStop
deriving DecidableEq, Repr

/-- `FlowPane.sendRunRequest`: one POST with no body; a non-2xx status or
transport failure is caught inside the method and only logged, so the emitted
actions do not depend on the outcome. -/
def sendRunRequest (_remoteOk : Bool) : List RunAction :=
  [.remoteRun]

/-- `FlowPane.runWorkflow` up to (and excluding) the awaited
`sendRunRequest`: the two entry guards, status message, spinner start
(setting `isWorkflowRunning`), ordering, and the per-node placeholder pass.
`none` means the call returned at a guard. -/
def runWorkflowStart (s : CanvasState) : Option (CanvasState × List RunAction) :=
  if s.nodes = [] then none
  else if s.running then none
  else
    let order := executionOrder s.nodes s.edges
    some ({ s with running := true },
      [.setStatus "Running workflow...", .spinnerStart]
        ++ order.enum.map (fun p => .placeholder p.2.key (p.1 + 1) order.length))

/-- The whole of `FlowPane.runWorkflow`: the pre-await pass, the awaited
`sendRunRequest`, and the `finally` block (spinner stop clearing
`isWorkflowRunning`, status reset).  `remoteOk` is the outcome of the remote
call. -/
def runWorkflow (s : CanvasState) (remoteOk : Bool) : CanvasState × List RunAction :=
  match runWorkflowStart s with
  | none => (s, [])
  | some (s₁, acts) =>
      ({ s₁ with running := false },
       acts ++ sendRunRequest remoteOk ++ [.spinnerStop, .setStatus "Ready"])

/-- A 2-D point with exact rational coordinates. -/
structure Vec2 where
  x : ℚ
  y : ℚ
deriving DecidableEq, Repr

/-- `FlowPane.minZoom`. -/
def minZoom : ℚ := 1/2

/-- `FlowPane.maxZoom`. -/
def maxZoom : ℚ := 2

/-- `FlowPane.screenToWorld` (exact rational arithmetic in place of JavaScript
floats). -/
def screenToWorld (origin panOffset : Vec2) (zoom : ℚ) (p : Vec2) : Vec2 :=
  { x := (p.x - origin.x) / zoom - panOffset.x,
    y := (p.y - origin.y) / zoom - panOffset.y }

/-- `FlowPane.worldToScreen`; `Math.round` and Mathlib's `round` both compute
`⌊x + 1/2⌋`. -/
def worldToScreen (origin panOffset : Vec2) (zoom : ℚ) (p : Vec2) : ℤ × ℤ :=
  (round (origin.x + (p.x + panOffset.x) * zoom),
   round (origin.y + (p.y + panOffset.y) * zoom))

/-- `FlowPane.adjustZoom(delta)`: clamp into `[minZoom, maxZoom]`, no-op when
the clamped value equals the current zoom. -/
def adjustZoom (zoom delta : ℚ) : ℚ :=
  min maxZoom (max minZoom (zoom + delta))

/-! ### Concrete canvases (Scenario A of the specification) -/

/-- A freshly constructed `FlowPane` canvas. -/
def emptyPane : CanvasState :=
  { registry := FlowNodeRegistry, paneId := "p", nodes := [], details := [],
    edges := [], pending := none, selected := [], running := false,
    nodeIndex := 0, nextKey := 0 }

/-- The `Build` node `b1` created first on the pane. -/
def b1 : NodeInst := { key := 0, nid := "p-build-1" }

/-- The `Compute` node `c1` created second. -/
def c1 : NodeInst := { key := 1, nid := "p-compute-2" }

/-- The `Validate` node `v1` created third. -/
def v1 : NodeInst := { key := 2, nid := "p-validate-3" }

/-- The `Compute` node `c2` created fourth (Scenario C). -/
def c2 : NodeInst := { key := 3, nid := "p-compute-4" }

/-- Scenario A before any connection: nodes `b1`, `c1`, `v1` (the canvas
`createNode emptyPane "Build"` then `"Compute"` then `"Validate"` builds,
written out). -/
def scenarioBase : CanvasState :=
  { registry := FlowNodeRegistry, paneId := "p",
    nodes := [b1, c1, v1],
    details := [(0, { dtype := "Build", dlabel := "build #1" }),
                (1, { dtype := "Compute", dlabel := "compute #2" }),
                (2, { dtype := "Validate", dlabel := "validate #3" })],
    edges := [], pending := none, selected := [], running := false,
    nodeIndex := 3, nextKey := 3 }

/-- Scenario A after `connect(b1,c1)` and `connect(c1,v1)`. -/
def scenarioAB : CanvasState :=
  connectNodes (connectNodes scenarioBase b1 c1) c1 v1

/-- Scenario C: `scenarioAB` plus a fresh `Compute` node `c2`
(`createNode scenarioAB "Compute"`, written out). -/
def scenarioC : CanvasState :=
  { scenarioAB with
      nodes := scenarioAB.nodes ++ [c2],
      details := scenarioAB.details ++
        [(3, { dtype := "Compute", dlabel := "compute #4" })],
      nodeIndex := 4, nextKey := 4 }

/-- `scenarioAB` while a workflow run is in flight. -/
def busyPane : CanvasState := { scenarioAB with running := true }

/-! ### The edge-set invariant (C2) -/

/-- The edge-set invariant of a canvas: every edge joins nodes whose types the
registry allows in both directions, no node exceeds its arity bounds, and no
two edges share the same ordered `(from, to)` pair. -/
def EdgeInvariant (s : CanvasState) : Prop :=
  (∀ e ∈ s.edges, ∃ fd td fdef tdef,
      lookupDetail s e.1 = some fd ∧ lookupDetail s e.2 = some td ∧
      lookupReg s.registry fd.dtype = some fdef ∧
      lookupReg s.registry td.dtype = some tdef ∧
      td.dtype ∈ fdef.allowedOutgoing ∧ fd.dtype ∈ tdef.allowedIncoming) ∧
  (∀ n ∈ s.nodes, ∀ d spec, lookupDetail s n = some d →
      lookupReg s.registry d.dtype = some spec →
      (s.edges.filter (fun e => e.1.key = n.key)).length ≤ spec.maxOut ∧
      (s.edges.filter (fun e => e.2.key = n.key)).length ≤ spec.maxIn) ∧
  s.edges.Nodup

/-- Model well-formedness: every object identity in use was allocated below
the `nextKey` counter (true of every canvas the pane can reach, since keys are
handed out by the allocator). -/
def KeysBounded (s : CanvasState) : Prop :=
  (∀ p ∈ s.details, p.1 < s.nextKey) ∧
  (∀ e ∈ s.edges, e.1.key < s.nextKey ∧ e.2.key < s.nextKey)


/-- The canvas after clicking `b1` on Scenario A's fresh canvas. -/
def selClick1 : CanvasState := clickDown scenarioBase b1

/-- ... then clicking `v1` (the connect attempt `b1 → v1` is rejected for
type, leaving both `b1` and `v1` with their selection flags set). -/
def selClick2 : CanvasState := clickDown selClick1 v1

/-- ... then clicking `c1` (arming `c1` as the pending connection). -/
def selClick3 : CanvasState := clickDown selClick2 c1

/-! ### Helper lemmas about `connectNodesR` -/

/-- With all four lookups resolved, `connectNodesR` is the check chain. -/
theorem connectNodesR_eq (s : CanvasState) (f t : NodeInst)
    (fd td : NodeDetail) (fdef tdef : NodeSpec)
    (hfd : lookupDetail s f = some fd) (htd : lookupDetail s t = some td)
    (hfdef : lookupReg s.registry fd.dtype = some fdef)
    (htdef : lookupReg s.registry td.dtype = some tdef) :
    connectNodesR s f t =
      if ¬ fdef.allowedOutgoing.contains td.dtype then
        (.outgoingTypeNotAllowed, s)
      else if ¬ tdef.allowedIncoming.contains fd.dtype then
        (.incomingTypeNotAllowed, s)
      else if (s.edges.filter (fun e => e.1.key = f.key)).length ≥ fdef.maxOut then
        (.outgoingCapacityExceeded, s)
      else if (s.edges.filter (fun e => e.2.key = t.key)).length ≥ tdef.maxIn then
        (.incomingCapacityExceeded, s)
      else if s.edges.any (fun e => edgeKey e.1 e.2 = edgeKey f t) then
        (.alreadyConnected, s)
      else
        (.connected,
         { s with
            edges := s.edges ++ [(f, t)],
            selected := (s.selected.filter (· ≠ f.key)).filter (· ≠ t.key) }) := by
  simp only [connectNodesR, hfd, htd, hfdef, htdef]

/-- Every call to `connectNodesR` either rejects, leaving the whole state
unchanged, or connects, having passed every check. -/
theorem connectNodesR_main (s : CanvasState) (f t : NodeInst) :
    ((connectNodesR s f t).2 = s ∧ (connectNodesR s f t).1 ≠ .connected) ∨
    ((connectNodesR s f t).1 = .connected ∧
     ∃ fd td fdef tdef,
       lookupDetail s f = some fd ∧ lookupDetail s t = some td ∧
       lookupReg s.registry fd.dtype = some fdef ∧
       lookupReg s.registry td.dtype = some tdef ∧
       fdef.allowedOutgoing.contains td.dtype = true ∧
       tdef.allowedIncoming.contains fd.dtype = true ∧
       (s.edges.filter (fun e => e.1.key = f.key)).length < fdef.maxOut ∧
       (s.edges.filter (fun e => e.2.key = t.key)).length < tdef.maxIn ∧
       (∀ e ∈ s.edges, edgeKey e.1 e.2 ≠ edgeKey f t) ∧
       (connectNodesR s f t).2 =
         { s with
            edges := s.edges ++ [(f, t)],
            selected := (s.selected.filter (· ≠ f.key)).filter (· ≠ t.key) }) := by
  cases hfd : lookupDetail s f with
  | none =>
      left
      constructor <;> simp [connectNodesR, hfd]
  | some fd =>
  cases htd : lookupDetail s t with
  | none =>
      left
      constructor <;> simp [connectNodesR, hfd, htd]
  | some td =>
  cases hfdef : lookupReg s.registry fd.dtype with
  | none =>
      left
      constructor <;> simp [connectNodesR, hfd, htd, hfdef]
  | some fdef =>
  cases htdef : lookupReg s.registry td.dtype with
  | none =>
      left
      constructor <;> simp [connectNodesR, hfd, htd, hfdef, htdef]
  | some tdef =>
  rw [connectNodesR_eq s f t fd td fdef tdef hfd htd hfdef htdef]
  by_cases h1 : fdef.allowedOutgoing.contains td.dtype = true
  case neg =>
    rw [if_pos h1]
    exact Or.inl ⟨rfl, fun h => nomatch h⟩
  rw [if_neg (not_not_intro h1)]
  by_cases h2 : tdef.allowedIncoming.contains fd.dtype = true
  case neg =>
    rw [if_pos h2]
    exact Or.inl ⟨rfl, fun h => nomatch h⟩
  rw [if_neg (not_not_intro h2)]
  by_cases h3 : (s.edges.filter (fun e => e.1.key = f.key)).length ≥ fdef.maxOut
  case pos =>
    rw [if_pos h3]
    exact Or.inl ⟨rfl, fun h => nomatch h⟩
  rw [if_neg h3]
  by_cases h4 : (s.edges.filter (fun e => e.2.key = t.key)).length ≥ tdef.maxIn
  case pos =>
    rw [if_pos h4]
    exact Or.inl ⟨rfl, fun h => nomatch h⟩
  rw [if_neg h4]
  by_cases h5 : s.edges.any (fun e => edgeKey e.1 e.2 = edgeKey f t) = true
  case pos =>
    rw [if_pos h5]
    exact Or.inl ⟨rfl, fun h => nomatch h⟩
  rw [if_neg h5]
  refine Or.inr ⟨rfl, fd, td, fdef, tdef, rfl, rfl, hfdef, htdef, h1, h2, ?_, ?_, ?_, rfl⟩
  · omega
  · omega
  · intro e he hk
    exact absurd (List.any_eq_true.mpr ⟨e, he, by simpa using hk⟩) h5

/-- **C7.**  Coordinate round-trip: for every pan offset, every zoom within
`[minZoom, maxZoom]` and every screen cell `p` (integer coordinates),
`worldToScreen (screenToWorld p)` differs from `p` by at most one cell in each
coordinate — in fact it recovers `p` exactly; concretely (Scenario D), with
zoom 2, pan `(0,0)` and content origin `(10,10)`, world `(5,5)` maps to screen
`(20,20)` and screen `(20,20)` maps back to world `(5,5)` exactly. -/
theorem C7_screen_world_round_trip (origin panOffset : Vec2) (zoom : ℚ)
    (hmin : minZoom ≤ zoom) (_hmax : zoom ≤ maxZoom) (px py : ℤ) :
    worldToScreen origin panOffset zoom
        (screenToWorld origin panOffset zoom { x := (px : ℚ), y := (py : ℚ) }) =
      (px, py) ∧
    ((worldToScreen origin panOffset zoom
        (screenToWorld origin panOffset zoom
          { x := (px : ℚ), y := (py : ℚ) })).1 - px).natAbs ≤ 1 ∧
    ((worldToScreen origin panOffset zoom
        (screenToWorld origin panOffset zoom
          { x := (px : ℚ), y := (py : ℚ) })).2 - py).natAbs ≤ 1 ∧
    screenToWorld { x := 10, y := 10 } { x := 0, y := 0 } 2 { x := 20, y := 20 } =
      { x := 5, y := 5 } ∧
    worldToScreen { x := 10, y := 10 } { x := 0, y := 0 } 2 { x := 5, y := 5 } =
      (20, 20) := by
  have hz : zoom ≠ 0 := by
    have h0 : (0 : ℚ) < zoom := lt_of_lt_of_le (by norm_num [minZoom]) hmin
    exact ne_of_gt h0
  have hco : ∀ o pan : ℚ, ∀ x : ℤ,
      round (o + (((x : ℚ) - o) / zoom - pan + pan) * zoom) = x := by
    intro o pan x
    have h1 : o + (((x : ℚ) - o) / zoom - pan + pan) * zoom = (x : ℚ) := by
      field_simp
      ring
    rw [h1, round_intCast]
  have hmain : worldToScreen origin panOffset zoom
      (screenToWorld origin panOffset zoom { x := (px : ℚ), y := (py : ℚ) }) =
        (px, py) := by
    simp only [worldToScreen, screenToWorld, Prod.mk.injEq]
    exact ⟨hco origin.x panOffset.x px, hco origin.y panOffset.y py⟩
  refine ⟨hmain, ?_, ?_, ?_, ?_⟩
  · rw [hmain]; simp
  · rw [hmain]; simp
  · simp only [screenToWorld]
    norm_num
  · simp only [worldToScreen]
    norm_num [round_eq]

/-- Witness for C7, at Scenario D's concrete pan, zoom and point. -/
theorem C7_witness :
    minZoom ≤ (2 : ℚ) ∧ (2 : ℚ) ≤ maxZoom ∧
    worldToScreen { x := 10, y := 10 } { x := 0, y := 0 } 2
        (screenToWorld { x := 10, y := 10 } { x := 0, y := 0 } 2
          { x := ((20 : ℤ) : ℚ), y := ((20 : ℤ) : ℚ) }) = (20, 20) :=
  ⟨by norm_num [minZoom], by norm_num [maxZoom],
   (C7_screen_world_round_trip { x := 10, y := 10 } { x := 0, y := 0 } 2
      (by norm_num [minZoom]) (by norm_num [maxZoom]) 20 20).1⟩

/-- **C10.**  Triggering a run on a canvas with zero nodes is a complete no-op:
`runWorkflow` returns at its first guard — before the running flag is
consulted, whatever its value — starts no spinner, computes no order, changes
no status message, sends no request, and returns the pane state unchanged. -/
theorem C10_run_empty_canvas_noop (s : CanvasState) (ok : Bool)
    (h : s.nodes = []) :
    runWorkflow s ok = (s, []) ∧ runWorkflowStart s = none := by
  have hstart : runWorkflowStart s = none := by
    simp [runWorkflowStart, h]
  exact ⟨by simp [runWorkflow, hstart], hstart⟩

/-- Witness for C10: a concrete empty canvas, even one whose running flag is
still set, is left untouched with no emitted action. -/
theorem C10_witness :
    runWorkflow { emptyPane with running := true } true =
      ({ emptyPane with running := true }, []) :=
  (C10_run_empty_canvas_noop { emptyPane with running := true } true rfl).1

/-- **C8.**  At most one run is active per canvas: a run in flight has the
running flag set; invoking the run action while the flag is set is a no-op
(no sort, no spinner, no remote call, no state change); and a completed pass
leaves the flag cleared. -/
theorem C8_single_active_run (s : CanvasState) (ok : Bool) :
    (s.running = true → runWorkflow s ok = (s, []) ∧ runWorkflowStart s = none) ∧
    (∀ s₁ acts, runWorkflowStart s = some (s₁, acts) → s₁.running = true) ∧
    ((runWorkflow s ok).1.running = false ∨ runWorkflow s ok = (s, [])) := by
  refine ⟨?_, ?_, ?_⟩
  · intro h
    have hstart : runWorkflowStart s = none := by
      unfold runWorkflowStart
      rcases hn : s.nodes with _ | ⟨a, l⟩ <;> simp [h]
    exact ⟨by simp [runWorkflow, hstart], hstart⟩
  · intro s₁ acts hsome
    unfold runWorkflowStart at hsome
    by_cases hn : s.nodes = []
    · simp [hn] at hsome
    · by_cases hr : s.running = true
      · simp [hn, hr] at hsome
      · simp only [if_neg hn, Bool.not_eq_true] at hsome
        rw [if_neg (by simp [hr])] at hsome
        have h2 : ({ s with running := true } : CanvasState) = s₁ :=
          congrArg Prod.fst (Option.some.inj hsome)
        rw [← h2]
  · rcases hstart : runWorkflowStart s with _ | ⟨s₁, acts⟩
    · right; simp [runWorkflow, hstart]
    · left; simp [runWorkflow, hstart]

/-- Witness for C8: pressing Run while `busyPane`'s run is in flight changes
nothing and emits nothing. -/
theorem C8_witness : runWorkflow busyPane true = (busyPane, []) :=
  ((C8_single_active_run busyPane true).1 rfl).1

/-- **C6.**  Connecting is idempotent on the edge set: whenever the ordered
pair `(from, to)` is already an edge, calling connect again leaves the whole
canvas state (in particular the edge set) unchanged. -/
theorem C6_connect_idempotent (s : CanvasState) (f t : NodeInst)
    (h : (f, t) ∈ s.edges) :
    connectNodes s f t = s ∧ (connectNodes s f t).edges = s.edges := by
  have hmain : (connectNodesR s f t).2 = s := by
    rcases connectNodesR_main s f t with ⟨hs, _⟩ |
      ⟨_, fd, td, fdef, tdef, _, _, _, _, _, _, _, _, hnone, _⟩
    · exact hs
    · exact absurd rfl (hnone (f, t) h)
  exact ⟨hmain, by rw [connectNodes, hmain]⟩

/-- Witness for C6 (Scenario B): `connect(b1,c1)` called twice on Scenario A's
canvas leaves the edge count at 1. -/
theorem C6_witness :
    (b1, c1) ∈ (connectNodes scenarioBase b1 c1).edges ∧
    connectNodes (connectNodes scenarioBase b1 c1) b1 c1 =
      connectNodes scenarioBase b1 c1 ∧
    (connectNodes (connectNodes scenarioBase b1 c1) b1 c1).edges.length = 1 :=
  ⟨by decide, (C6_connect_idempotent _ b1 c1 (by decide)).1, by decide⟩

/-- **C3.**  `connectNodes` performs its checks in this fixed order,
short-circuiting at the first failure: (1) target type not allowed outgoing,
(2) source type not allowed incoming, (3) source at outgoing capacity,
(4) target at incoming capacity, then the duplicate-edge check; any rejection
leaves the whole canvas state unchanged, and an edge is appended exactly when
all checks pass, after which both endpoints are deselected. -/
theorem C3_connect_check_order (s : CanvasState) (f t : NodeInst)
    (fd td : NodeDetail) (fdef tdef : NodeSpec)
    (hfd : lookupDetail s f = some fd) (htd : lookupDetail s t = some td)
    (hfdef : lookupReg s.registry fd.dtype = some fdef)
    (htdef : lookupReg s.registry td.dtype = some tdef) :
    ((connectNodesR s f t).1 = .outgoingTypeNotAllowed ↔
        td.dtype ∉ fdef.allowedOutgoing) ∧
    ((connectNodesR s f t).1 = .incomingTypeNotAllowed ↔
        (td.dtype ∈ fdef.allowedOutgoing ∧ fd.dtype ∉ tdef.allowedIncoming)) ∧
    ((connectNodesR s f t).1 = .outgoingCapacityExceeded ↔
        (td.dtype ∈ fdef.allowedOutgoing ∧ fd.dtype ∈ tdef.allowedIncoming ∧
         (s.edges.filter (fun e => e.1.key = f.key)).length ≥ fdef.maxOut)) ∧
    ((connectNodesR s f t).1 = .incomingCapacityExceeded ↔
        (td.dtype ∈ fdef.allowedOutgoing ∧ fd.dtype ∈ tdef.allowedIncoming ∧
         (s.edges.filter (fun e => e.1.key = f.key)).length < fdef.maxOut ∧
         (s.edges.filter (fun e => e.2.key = t.key)).length ≥ tdef.maxIn)) ∧
    ((connectNodesR s f t).1 = .alreadyConnected ↔
        (td.dtype ∈ fdef.allowedOutgoing ∧ fd.dtype ∈ tdef.allowedIncoming ∧
         (s.edges.filter (fun e => e.1.key = f.key)).length < fdef.maxOut ∧
         (s.edges.filter (fun e => e.2.key = t.key)).length < tdef.maxIn ∧
         (∃ e ∈ s.edges, edgeKey e.1 e.2 = edgeKey f t))) ∧
    ((connectNodesR s f t).1 = .connected ↔
        (td.dtype ∈ fdef.allowedOutgoing ∧ fd.dtype ∈ tdef.allowedIncoming ∧
         (s.edges.filter (fun e => e.1.key = f.key)).length < fdef.maxOut ∧
         (s.edges.filter (fun e => e.2.key = t.key)).length < tdef.maxIn ∧
         ¬ (∃ e ∈ s.edges, edgeKey e.1 e.2 = edgeKey f t))) ∧
    ((connectNodesR s f t).1 ≠ .connected → (connectNodesR s f t).2 = s) ∧
    ((connectNodesR s f t).1 = .connected →
        (connectNodesR s f t).2 =
          { s with
              edges := s.edges ++ [(f, t)],
              selected := (s.selected.filter (· ≠ f.key)).filter (· ≠ t.key) }) := by
  rw [connectNodesR_eq s f t fd td fdef tdef hfd htd hfdef htdef]
  by_cases h1 : td.dtype ∈ fdef.allowedOutgoing
  case neg =>
    rw [if_pos (by simpa using h1)]
    refine ⟨iff_of_true rfl h1,
            iff_of_false (fun h => ConnectResult.noConfusion h) ?_,
            iff_of_false (fun h => ConnectResult.noConfusion h) ?_,
            iff_of_false (fun h => ConnectResult.noConfusion h) ?_,
            iff_of_false (fun h => ConnectResult.noConfusion h) ?_,
            iff_of_false (fun h => ConnectResult.noConfusion h) ?_,
            fun _ => rfl, fun h => ConnectResult.noConfusion h⟩
      <;> rintro ⟨hm, -⟩ <;> exact h1 hm
  rw [if_neg (by simpa using h1)]
  by_cases h2 : fd.dtype ∈ tdef.allowedIncoming
  case neg =>
    rw [if_pos (by simpa using h2)]
    refine ⟨iff_of_false (fun h => ConnectResult.noConfusion h) (fun hn => hn h1),
            iff_of_true rfl ⟨h1, h2⟩,
            iff_of_false (fun h => ConnectResult.noConfusion h) ?_,
            iff_of_false (fun h => ConnectResult.noConfusion h) ?_,
            iff_of_false (fun h => ConnectResult.noConfusion h) ?_,
            iff_of_false (fun h => ConnectResult.noConfusion h) ?_,
            fun _ => rfl, fun h => ConnectResult.noConfusion h⟩
      <;> rintro ⟨-, hm, -⟩ <;> exact h2 hm
  rw [if_neg (by simpa using h2)]
  by_cases h3 : (s.edges.filter (fun e => e.1.key = f.key)).length ≥ fdef.maxOut
  case pos =>
    rw [if_pos h3]
    refine ⟨iff_of_false (fun h => ConnectResult.noConfusion h) (fun hn => hn h1),
            iff_of_false (fun h => ConnectResult.noConfusion h) (fun h => h.2 h2),
            iff_of_true rfl ⟨h1, h2, h3⟩,
            iff_of_false (fun h => ConnectResult.noConfusion h) ?_,
            iff_of_false (fun h => ConnectResult.noConfusion h) ?_,
            iff_of_false (fun h => ConnectResult.noConfusion h) ?_,
            fun _ => rfl, fun h => ConnectResult.noConfusion h⟩
      <;> rintro ⟨-, -, hlt, -⟩ <;> omega
  rw [if_neg h3]
  by_cases h4 : (s.edges.filter (fun e => e.2.key = t.key)).length ≥ tdef.maxIn
  case pos =>
    rw [if_pos h4]
    refine ⟨iff_of_false (fun h => ConnectResult.noConfusion h) (fun hn => hn h1),
            iff_of_false (fun h => ConnectResult.noConfusion h) (fun h => h.2 h2),
            iff_of_false (fun h => ConnectResult.noConfusion h) (fun h => h3 h.2.2),
            iff_of_true rfl ⟨h1, h2, by omega, h4⟩,
            iff_of_false (fun h => ConnectResult.noConfusion h) ?_,
            iff_of_false (fun h => ConnectResult.noConfusion h) ?_,
            fun _ => rfl, fun h => ConnectResult.noConfusion h⟩
      <;> rintro ⟨-, -, -, hlt, -⟩ <;> omega
  rw [if_neg h4]
  by_cases h5 : s.edges.any (fun e => edgeKey e.1 e.2 = edgeKey f t) = true
  case pos =>
    have h5e : ∃ e ∈ s.edges, edgeKey e.1 e.2 = edgeKey f t := by
      simpa using h5
    rw [if_pos h5]
    refine ⟨iff_of_false (fun h => ConnectResult.noConfusion h) (fun hn => hn h1),
            iff_of_false (fun h => ConnectResult.noConfusion h) (fun h => h.2 h2),
            iff_of_false (fun h => ConnectResult.noConfusion h) (fun h => h3 h.2.2),
            iff_of_false (fun h => ConnectResult.noConfusion h) (fun h => h4 h.2.2.2),
            iff_of_true rfl ⟨h1, h2, by omega, by omega, h5e⟩,
            iff_of_false (fun h => ConnectResult.noConfusion h)
              (fun h => h.2.2.2.2 h5e),
            fun _ => rfl, fun h => ConnectResult.noConfusion h⟩
  rw [if_neg h5]
  have h5e : ¬ ∃ e ∈ s.edges, edgeKey e.1 e.2 = edgeKey f t := by
    intro hex
    exact h5 (by simpa using hex)
  exact ⟨iff_of_false (fun h => ConnectResult.noConfusion h) (fun hn => hn h1),
         iff_of_false (fun h => ConnectResult.noConfusion h) (fun h => h.2 h2),
         iff_of_false (fun h => ConnectResult.noConfusion h) (fun h => h3 h.2.2),
         iff_of_false (fun h => ConnectResult.noConfusion h) (fun h => h4 h.2.2.2),
         iff_of_false (fun h => ConnectResult.noConfusion h)
           (fun h => h5e h.2.2.2.2),
         iff_of_true rfl ⟨h1, h2, by omega, by omega, h5e⟩,
         fun h => absurd rfl h, fun _ => rfl⟩

/-- Witness for C3 (Scenario C): with `b1` already at `maxOut = 1`, connecting
`b1` to the fresh `Compute` node `c2` is rejected for outgoing capacity and
changes nothing. -/
theorem C3_witness :
    (connectNodesR scenarioC b1 c2).1 = .outgoingCapacityExceeded ∧
    (connectNodesR scenarioC b1 c2).2 = scenarioC := by
  have H := C3_connect_check_order scenarioC b1 c2
    { dtype := "Build", dlabel := "build #1" }
    { dtype := "Compute", dlabel := "compute #4" }
    { maxIn := 0, maxOut := 1, allowedOutgoing := ["Compute"], allowedIncoming := [] }
    { maxIn := 1, maxOut := 1, allowedOutgoing := ["Validate"], allowedIncoming := ["Build"] }
    (by decide) (by decide) (by decide) (by decide)
  have hres : (connectNodesR scenarioC b1 c2).1 = .outgoingCapacityExceeded :=
    (H.2.2.1).mpr ⟨by decide, by decide, by decide⟩
  exact ⟨hres, H.2.2.2.2.2.2.1 (by rw [hres]; decide)⟩

theorem lookupDetail_congr {s s' : CanvasState} (h : s'.details = s.details)
    (n : NodeInst) : lookupDetail s' n = lookupDetail s n := by
  unfold lookupDetail
  rw [h]

theorem lookupDetail_key (s : CanvasState) {m n : NodeInst} (h : m.key = n.key) :
    lookupDetail s m = lookupDetail s n := by
  unfold lookupDetail
  rw [h]

/-- `EdgeInvariant` only reads the registry, nodes, details and edges. -/
theorem edgeInvariant_of_fields {s s' : CanvasState}
    (hreg : s'.registry = s.registry) (hdet : s'.details = s.details)
    (hn : s'.nodes = s.nodes) (he : s'.edges = s.edges)
    (hinv : EdgeInvariant s) : EdgeInvariant s' := by
  obtain ⟨i1, i2, i3⟩ := hinv
  refine ⟨?_, ?_, ?_⟩
  · intro e he'
    rw [he] at he'
    obtain ⟨fd, td, fdef, tdef, a1, a2, a3, a4, a5, a6⟩ := i1 e he'
    exact ⟨fd, td, fdef, tdef,
      by rw [lookupDetail_congr hdet]; exact a1,
      by rw [lookupDetail_congr hdet]; exact a2,
      by rw [hreg]; exact a3, by rw [hreg]; exact a4, a5, a6⟩
  · intro n hn' d spec hd hspec
    rw [hn] at hn'
    rw [lookupDetail_congr hdet] at hd
    rw [hreg] at hspec
    rw [he]
    exact i2 n hn' d spec hd hspec
  · rw [he]
    exact i3

theorem filter_append_single (p : NodeInst × NodeInst → Bool)
    (l : List (NodeInst × NodeInst)) (x : NodeInst × NodeInst) :
    (List.filter p (l ++ [x])).length =
      (List.filter p l).length + (if p x then 1 else 0) := by
  rw [List.filter_append]
  rw [List.length_append]
  congr 1
  rcases hx : p x <;> simp [List.filter, hx]

/-- `connectNodes` preserves the edge-set invariant. -/
theorem edgeInvariant_connectNodes (s : CanvasState) (f t : NodeInst)
    (hinv : EdgeInvariant s) : EdgeInvariant (connectNodes s f t) := by
  rcases connectNodesR_main s f t with ⟨hs, _⟩ |
    ⟨_, fd, td, fdef, tdef, hfd, htd, hfdef, htdef, hc1, hc2, hlt1, hlt2, hnew, hstate⟩
  · rw [connectNodes, hs]
    exact hinv
  · rw [connectNodes, hstate]
    obtain ⟨i1, i2, i3⟩ := hinv
    refine ⟨?_, ?_, ?_⟩
    · intro e he
      rcases List.mem_append.mp he with he' | he''
      · obtain ⟨fd', td', fdef', tdef', a1, a2, a3, a4, a5, a6⟩ := i1 e he'
        exact ⟨fd', td', fdef', tdef', a1, a2, a3, a4, a5, a6⟩
      · have hft : e = (f, t) := by simpa using he''
        subst hft
        exact ⟨fd, td, fdef, tdef, hfd, htd, hfdef, htdef,
          by simpa using hc1, by simpa using hc2⟩
    · intro n hn d spec hd hspec
      have hd' : lookupDetail s n = some d := hd
      have hbase := i2 n hn d spec hd' hspec
      constructor
      · show (List.filter (fun e => e.1.key = n.key) (s.edges ++ [(f, t)])).length ≤ spec.maxOut
        rw [filter_append_single]
        by_cases hkf : f.key = n.key
        · have hdd : lookupDetail s f = some d := by
            rw [lookupDetail_key s hkf]
            exact hd'
          have hfd' : fd = d := by
            rw [hfd] at hdd
            exact Option.some.inj hdd
          have hspec' : fdef = spec := by
            rw [hfd'] at hfdef
            rw [hfdef] at hspec
            exact Option.some.inj hspec
          have hcnt : (List.filter (fun e => e.1.key = n.key) s.edges).length =
              (List.filter (fun e => e.1.key = f.key) s.edges).length := by
            rw [hkf]
          rw [if_pos (by simpa using hkf), hcnt, ← hspec']
          omega
        · rw [if_neg (by simpa using hkf)]
          omega
      · show (List.filter (fun e => e.2.key = n.key) (s.edges ++ [(f, t)])).length ≤ spec.maxIn
        rw [filter_append_single]
        by_cases hkt : t.key = n.key
        · have hdd : lookupDetail s t = some d := by
            rw [lookupDetail_key s hkt]
            exact hd'
          have htd' : td = d := by
            rw [htd] at hdd
            exact Option.some.inj hdd
          have hspec' : tdef = spec := by
            rw [htd'] at htdef
            rw [htdef] at hspec
            exact Option.some.inj hspec
          have hcnt : (List.filter (fun e => e.2.key = n.key) s.edges).length =
              (List.filter (fun e => e.2.key = t.key) s.edges).length := by
            rw [hkt]
          rw [if_pos (by simpa using hkt), hcnt, ← hspec']
          omega
        · rw [if_neg (by simpa using hkt)]
          omega
    · have hnotmem : (f, t) ∉ s.edges := fun hmem => absurd rfl (hnew (f, t) hmem)
      simp [List.nodup_append, i3, hnotmem]

theorem lookupDetail_key_lt {s : CanvasState} {m : NodeInst} {d : NodeDetail}
    (h : lookupDetail s m = some d) (B : Nat)
    (hb : ∀ p ∈ s.details, p.1 < B) : m.key < B := by
  unfold lookupDetail at h
  cases hfind : s.details.find? (fun p => p.1 = m.key) with
  | none => rw [hfind] at h; simp at h
  | some p =>
      have hmem := List.mem_of_find?_eq_some hfind
      have hkey : p.1 = m.key := by
        have := List.find?_some hfind
        simpa using this
      rw [← hkey]
      exact hb p hmem

/-- `createNode` preserves the edge-set invariant on any key-bounded canvas. -/
theorem edgeInvariant_createNode (s : CanvasState) (v : String)
    (hinv : EdgeInvariant s) (hkb : KeysBounded s) :
    EdgeInvariant (createNode s v) := by
  obtain ⟨i1, i2, i3⟩ := hinv
  obtain ⟨k1, k2⟩ := hkb
  have hlkOld : ∀ m : NodeInst, m.key ≠ s.nextKey →
      lookupDetail (createNode s v) m = lookupDetail s m := by
    intro m hm
    have hne : s.nextKey ≠ m.key := fun h => hm h.symm
    simp only [lookupDetail, createNode]
    rw [List.find?_append]
    cases hfind : s.details.find? (fun p => p.1 = m.key) with
    | some x => simp [hfind]
    | none => simp [hfind, List.find?, hne]
  have hcnt0 : ∀ k : Nat, k = s.nextKey →
      (s.edges.filter (fun e => e.1.key = k)).length = 0 ∧
      (s.edges.filter (fun e => e.2.key = k)).length = 0 := by
    intro k hk
    subst hk
    constructor <;>
      · rw [List.length_eq_zero, List.filter_eq_nil_iff]
        intro e he
        have := k2 e he
        simp only [decide_eq_true_eq]
        omega
  have hedges : (createNode s v).edges = s.edges := rfl
  have hreg : (createNode s v).registry = s.registry := rfl
  refine ⟨?_, ?_, ?_⟩
  · intro e he
    rw [hedges] at he
    obtain ⟨fd, td, fdef, tdef, a1, a2, a3, a4, a5, a6⟩ := i1 e he
    have hk1 : e.1.key ≠ s.nextKey := by
      have := lookupDetail_key_lt a1 s.nextKey k1
      omega
    have hk2' : e.2.key ≠ s.nextKey := by
      have := lookupDetail_key_lt a2 s.nextKey k1
      omega
    refine ⟨fd, td, fdef, tdef, ?_, ?_, ?_, ?_, a5, a6⟩
    · rw [hlkOld e.1 hk1]; exact a1
    · rw [hlkOld e.2 hk2']; exact a2
    · rw [hreg]; exact a3
    · rw [hreg]; exact a4
  · intro n hn d spec hd hspec
    rw [hreg] at hspec
    by_cases hk : n.key = s.nextKey
    · have h0 := hcnt0 n.key hk
      constructor
      · show ((createNode s v).edges.filter (fun e => e.1.key = n.key)).length ≤ spec.maxOut
        rw [hedges]
        omega
      · show ((createNode s v).edges.filter (fun e => e.2.key = n.key)).length ≤ spec.maxIn
        rw [hedges]
        omega
    · have hn' : n ∈ s.nodes := by
        simp only [createNode, List.mem_append, List.mem_singleton] at hn
        rcases hn with h | h
        · exact h
        · exfalso
          exact hk (congrArg NodeInst.key h)
      rw [hlkOld n hk] at hd
      have := i2 n hn' d spec hd hspec
      constructor
      · show ((createNode s v).edges.filter (fun e => e.1.key = n.key)).length ≤ spec.maxOut
        rw [hedges]
        exact this.1
      · show ((createNode s v).edges.filter (fun e => e.2.key = n.key)).length ≤ spec.maxIn
        rw [hedges]
        exact this.2
  · rw [hedges]
    exact i3

theorem edgeInvariant_handleNodeSelection (s : CanvasState) (n : NodeInst)
    (hinv : EdgeInvariant s) : EdgeInvariant (handleNodeSelection s n) := by
  cases hp : s.pending with
  | none =>
      simp only [handleNodeSelection, hp]
      exact edgeInvariant_of_fields rfl rfl rfl rfl hinv
  | some p =>
      simp only [handleNodeSelection, hp]
      by_cases hk : p.key ≠ n.key
      · rw [if_pos hk]
        exact edgeInvariant_of_fields rfl rfl rfl rfl
          (edgeInvariant_connectNodes s p n hinv)
      · rw [if_neg hk]
        exact edgeInvariant_of_fields rfl rfl rfl rfl hinv

theorem edgeInvariant_handleNodeDeselection (s : CanvasState) (n : NodeInst)
    (hinv : EdgeInvariant s) : EdgeInvariant (handleNodeDeselection s n) := by
  unfold handleNodeDeselection
  by_cases hc : s.pending.any (fun p => p.key = n.key) = true
  · rw [if_pos hc]
    exact edgeInvariant_of_fields rfl rfl rfl rfl hinv
  · rw [if_neg hc]
    exact hinv

theorem edgeInvariant_clickDown (s : CanvasState) (n : NodeInst)
    (hinv : EdgeInvariant s) : EdgeInvariant (clickDown s n) := by
  unfold clickDown
  by_cases hc : s.selected.contains n.key = true
  · rw [if_pos hc]
    exact edgeInvariant_handleNodeDeselection _ n
      (edgeInvariant_of_fields rfl rfl rfl rfl hinv)
  · rw [if_neg hc]
    exact edgeInvariant_handleNodeSelection _ n
      (edgeInvariant_of_fields rfl rfl rfl rfl hinv)

theorem edgeInvariant_dragEnd (s : CanvasState) (n : NodeInst)
    (hinv : EdgeInvariant s) : EdgeInvariant (dragEnd s n) := by
  unfold dragEnd
  exact edgeInvariant_handleNodeDeselection _ n
    (edgeInvariant_of_fields rfl rfl rfl rfl hinv)

/-- When `runWorkflowStart` does not return at a guard, it set the running
flag (and nothing else) and emitted the status, spinner and placeholder pass
over the computed execution order. -/
theorem runWorkflowStart_some_eq {s s₁ : CanvasState} {acts : List RunAction}
    (h : runWorkflowStart s = some (s₁, acts)) :
    s₁ = { s with running := true } ∧ s.nodes ≠ [] ∧ s.running = false ∧
    acts = [.setStatus "Running workflow...", .spinnerStart]
        ++ (executionOrder s.nodes s.edges).enum.map
            (fun p => .placeholder p.2.key (p.1 + 1)
              (executionOrder s.nodes s.edges).length) := by
  unfold runWorkflowStart at h
  by_cases hn : s.nodes = []
  · rw [if_pos hn] at h
    exact absurd h (by simp)
  · rw [if_neg hn] at h
    by_cases hr : s.running = true
    · rw [if_pos hr] at h
      exact absurd h (by simp)
    · rw [if_neg hr] at h
      have h' := Option.some.inj h
      refine ⟨(congrArg Prod.fst h').symm, hn, by simpa using hr,
        (congrArg Prod.snd h').symm⟩

theorem edgeInvariant_runWorkflow (s : CanvasState) (ok : Bool)
    (hinv : EdgeInvariant s) : EdgeInvariant ((runWorkflow s ok).1) := by
  unfold runWorkflow
  cases hstart : runWorkflowStart s with
  | none => exact hinv
  | some p =>
      obtain ⟨s₁, acts⟩ := p
      obtain ⟨hs₁, -, -, -⟩ := runWorkflowStart_some_eq hstart
      show EdgeInvariant { s₁ with running := false }
      refine edgeInvariant_of_fields ?_ ?_ ?_ ?_ hinv <;> rw [hs₁]

/-- **C2.**  The edge-set invariant — every edge allowed in both directions by
the registry, every node within its arity bounds, no duplicate ordered pair —
is preserved by every operation on a canvas: connecting, node creation (on a
key-bounded canvas), both selection handlers, node clicks, drag ends, and a
workflow run. -/
theorem C2_edge_invariant_preserved (s : CanvasState) (f t n : NodeInst)
    (v : String) (ok : Bool) (hinv : EdgeInvariant s) (hkb : KeysBounded s) :
    EdgeInvariant (connectNodes s f t) ∧
    EdgeInvariant (createNode s v) ∧
    EdgeInvariant (handleNodeSelection s n) ∧
    EdgeInvariant (handleNodeDeselection s n) ∧
    EdgeInvariant (clickDown s n) ∧
    EdgeInvariant (dragEnd s n) ∧
    EdgeInvariant ((runWorkflow s ok).1) :=
  ⟨edgeInvariant_connectNodes s f t hinv,
   edgeInvariant_createNode s v hinv hkb,
   edgeInvariant_handleNodeSelection s n hinv,
   edgeInvariant_handleNodeDeselection s n hinv,
   edgeInvariant_clickDown s n hinv,
   edgeInvariant_dragEnd s n hinv,
   edgeInvariant_runWorkflow s ok hinv⟩

/-- A computable sufficient check for `EdgeInvariant`, used to establish the
invariant on concrete canvases. -/
theorem edgeInvariant_of_check (s : CanvasState)
    (h1 : s.edges.all (fun e =>
        match lookupDetail s e.1, lookupDetail s e.2 with
        | some fd, some td =>
          match lookupReg s.registry fd.dtype, lookupReg s.registry td.dtype with
          | some fdef, some tdef =>
              fdef.allowedOutgoing.contains td.dtype &&
              tdef.allowedIncoming.contains fd.dtype
          | _, _ => false
        | _, _ => false) = true)
    (h2 : s.nodes.all (fun n =>
        match lookupDetail s n with
        | some d =>
          match lookupReg s.registry d.dtype with
          | some spec =>
              decide ((s.edges.filter (fun e => e.1.key = n.key)).length ≤ spec.maxOut) &&
              decide ((s.edges.filter (fun e => e.2.key = n.key)).length ≤ spec.maxIn)
          | none => true
        | none => true) = true)
    (h3 : s.edges.Nodup) : EdgeInvariant s := by
  refine ⟨?_, ?_, h3⟩
  · intro e he
    have hb := (List.all_eq_true.mp h1) e he
    cases hfd : lookupDetail s e.1 with
    | none =>
        simp only [hfd] at hb
        exact Bool.noConfusion hb
    | some fd =>
      cases htd : lookupDetail s e.2 with
      | none =>
          simp only [hfd, htd] at hb
          exact Bool.noConfusion hb
      | some td =>
        simp only [hfd, htd] at hb
        cases hfdef : lookupReg s.registry fd.dtype with
        | none =>
            simp only [hfdef] at hb
            exact Bool.noConfusion hb
        | some fdef =>
          cases htdef : lookupReg s.registry td.dtype with
          | none =>
              simp only [hfdef, htdef] at hb
              exact Bool.noConfusion hb
          | some tdef =>
            simp only [hfdef, htdef, Bool.and_eq_true] at hb
            exact ⟨fd, td, fdef, tdef, rfl, rfl, hfdef, htdef,
              by simpa using hb.1, by simpa using hb.2⟩
  · intro n hn d spec hd hspec
    have hb := (List.all_eq_true.mp h2) n hn
    simp only [hd] at hb
    simp only [hspec, Bool.and_eq_true, decide_eq_true_eq] at hb
    exact hb

/-- Witness for C2 at the concrete Scenario A canvas: the invariant holds
there, the canvas is key-bounded, and both a connect and a node creation
preserve the invariant. -/
theorem C2_witness :
    EdgeInvariant scenarioAB ∧ KeysBounded scenarioAB ∧
    EdgeInvariant (connectNodes scenarioAB b1 c1) ∧
    EdgeInvariant (createNode scenarioAB "Compute") :=
  have hinv : EdgeInvariant scenarioAB :=
    edgeInvariant_of_check _ (by decide) (by decide) (by decide)
  have hkb : KeysBounded scenarioAB := ⟨by decide, by decide⟩
  have H := C2_edge_invariant_preserved scenarioAB b1 c1 b1 "Compute" true hinv hkb
  ⟨hinv, hkb, H.1, H.2.1⟩

/-- **C5.**  When Kahn's algorithm terminates with an order shorter than the
node list (a cycle is present), `runWorkflow` discards the partial order:
`executionOrder` equals the node list in creation order (hence has the same
length as the node set), and the run still proceeds, emitting its status
message, spinner and placeholder pass over the creation order. -/
theorem C5_cycle_fallback (nodes : List NodeInst)
    (edges : List (NodeInst × NodeInst))
    (h : (kahnExecutionOrder nodes edges).length ≠ nodes.length) :
    executionOrder nodes edges = nodes ∧
    (executionOrder nodes edges).length = nodes.length ∧
    (∀ s : CanvasState, s.nodes = nodes → s.edges = edges →
      s.running = false → nodes ≠ [] →
      runWorkflowStart s = some ({ s with running := true },
        [.setStatus "Running workflow...", .spinnerStart]
          ++ nodes.enum.map
              (fun p => .placeholder p.2.key (p.1 + 1) nodes.length))) := by
  have hord : executionOrder nodes edges = nodes := by
    unfold executionOrder
    rw [if_pos h]
  refine ⟨hord, by rw [hord], ?_⟩
  intro s hsn hse hr hne
  unfold runWorkflowStart
  rw [if_neg (by rw [hsn]; exact hne), if_neg (by simp [hr])]
  rw [hsn, hse, hord]

/-- Witness for C5: a two-node cycle; the Kahn order is empty, and the
fallback runs the nodes in creation order. -/
theorem C5_witness :
    (kahnExecutionOrder [b1, c1] [(b1, c1), (c1, b1)]).length ≠
      ([b1, c1] : List NodeInst).length ∧
    executionOrder [b1, c1] [(b1, c1), (c1, b1)] = [b1, c1] :=
  ⟨by decide, (C5_cycle_fallback [b1, c1] [(b1, c1), (c1, b1)] (by decide)).1⟩

/-- **C1 (counterexample).**  The claim says each node's execution awaits one
remote run call carrying that node's id, so a three-node run would issue three
node-level calls; on the concrete Scenario A canvas the code issues exactly
one workflow-level call (and its `RunAction` trace contains no per-node call
at all). -/
theorem C1_counterexample :
    scenarioAB.nodes.length = 3 ∧
    ((runWorkflow scenarioAB true).2.countP (fun a => a = .remoteRun)) = 1 ∧
    (1 : Nat) ≠ 3 :=
  ⟨by decide, by decide, by decide⟩

/-- **C1 (amended).**  On a non-empty canvas with no run in flight, the
scheduler walks the computed execution order synchronously, invoking the local
placeholder for each node with its 1-based step and the total, then awaits a
single remote run call for the whole workflow (carrying no node data); a
failed call is caught inside `sendRunRequest`, so the emitted actions and the
final state do not depend on the outcome and the run always completes
(spinner stopped, status reset, flag cleared, graph untouched). -/
theorem C1_run_trace (s : CanvasState) (ok : Bool)
    (hne : s.nodes ≠ []) (hr : s.running = false) :
    (runWorkflow s ok).2 =
      [.setStatus "Running workflow...", .spinnerStart]
        ++ (executionOrder s.nodes s.edges).enum.map
            (fun p => .placeholder p.2.key (p.1 + 1)
              (executionOrder s.nodes s.edges).length)
        ++ [.remoteRun, .spinnerStop, .setStatus "Ready"] ∧
    (runWorkflow s ok).1 = { s with running := false } ∧
    runWorkflow s false = runWorkflow s true ∧
    ((runWorkflow s ok).2.countP (fun a => a = .remoteRun)) = 1 := by
  have hstart : runWorkflowStart s = some ({ s with running := true },
      [.setStatus "Running workflow...", .spinnerStart]
        ++ (executionOrder s.nodes s.edges).enum.map
            (fun p => .placeholder p.2.key (p.1 + 1)
              (executionOrder s.nodes s.edges).length)) := by
    unfold runWorkflowStart
    rw [if_neg hne, if_neg (by simp [hr])]
  have htrace : (runWorkflow s ok).2 =
      [.setStatus "Running workflow...", .spinnerStart]
        ++ (executionOrder s.nodes s.edges).enum.map
            (fun p => .placeholder p.2.key (p.1 + 1)
              (executionOrder s.nodes s.edges).length)
        ++ [.remoteRun, .spinnerStop, .setStatus "Ready"] := by
    simp [runWorkflow, hstart, sendRunRequest]
  refine ⟨htrace, by simp [runWorkflow, hstart], rfl, ?_⟩
  rw [htrace]
  simp [List.countP_append, List.countP_cons, List.countP_map, Function.comp,
    List.countP_eq_zero]

/-- Witness for C1's amended statement on the Scenario A canvas. -/
theorem C1_witness :
    scenarioAB.nodes ≠ [] ∧
    (runWorkflow scenarioAB true).1 = { scenarioAB with running := false } ∧
    ((runWorkflow scenarioAB true).2.countP (fun a => a = .remoteRun)) = 1 :=
  ⟨by decide, (C1_run_trace scenarioAB true (by decide) rfl).2.1,
    (C1_run_trace scenarioAB true (by decide) rfl).2.2.2⟩

/-- **C9 (counterexample).**  In the reachable state `selClick3` the machine
is in `Selected(c1)` while `v1`'s box is still flagged selected (left over
from the rejected `b1 → v1` attempt).  Clicking the different node `v1` now
merely toggles `v1` off: no `tryConnect(c1, v1)` is attempted — although that
connection would have succeeded — and the pending slot still holds `c1`
instead of returning to `Idle`. -/
theorem C9_counterexample :
    selClick3.pending = some c1 ∧
    v1.key ∈ selClick3.selected ∧
    v1.key ≠ c1.key ∧
    (connectNodesR selClick3 c1 v1).1 = .connected ∧
    (clickDown selClick3 v1).pending = some c1 ∧
    (clickDown selClick3 v1).edges = [] := by
  decide

/-- **C9 (amended).**  The pending-connection slot holds at most one node (it
is a single optional reference).  From `Selected(a)`: a click that *selects* a
different node `b` (i.e. `b`'s flag was clear) attempts `tryConnect(a, b)` and
clears the slot to `Idle` whatever the outcome; a click on a different node
`b` whose flag was still set merely deselects `b`, leaving the machine in
`Selected(a)` with the edge set untouched; a repeated click on `a` itself, or
deselecting `a` (drag end), clears the slot to `Idle`. -/
theorem C9_selection_machine (s : CanvasState) (a b : NodeInst)
    (hpend : s.pending = some a) :
    (b.key ≠ a.key → s.selected.contains b.key = false →
        (clickDown s b).pending = none ∧
        clickDown s b =
          { connectNodes { s with selected := s.selected ++ [b.key] } a b with
              pending := none }) ∧
    (b.key ≠ a.key → s.selected.contains b.key = true →
        (clickDown s b).pending = some a ∧ (clickDown s b).edges = s.edges) ∧
    (s.selected.contains a.key = true → (clickDown s a).pending = none) ∧
    (dragEnd s a).pending = none := by
  refine ⟨?_, ?_, ?_, ?_⟩
  · intro hne hsel
    unfold clickDown
    rw [if_neg (by rw [hsel]; exact fun h => Bool.noConfusion h)]
    unfold handleNodeSelection
    simp only [hpend]
    rw [if_pos (fun h => hne h.symm)]
    exact ⟨rfl, rfl⟩
  · intro hne hsel
    unfold clickDown
    rw [if_pos hsel]
    unfold handleNodeDeselection
    have hcond : (({ s with selected := s.selected.filter (· ≠ b.key) }
        : CanvasState).pending.any (fun p => p.key = b.key)) = false := by
      show (s.pending.any (fun p => p.key = b.key)) = false
      rw [hpend]
      simp only [Option.any_some, decide_eq_false_iff_not]
      exact fun h => hne h.symm
    rw [if_neg (by rw [hcond]; exact fun h => Bool.noConfusion h)]
    exact ⟨hpend, rfl⟩
  · intro hsel
    unfold clickDown
    rw [if_pos hsel]
    unfold handleNodeDeselection
    have hcond : (({ s with selected := s.selected.filter (· ≠ a.key) }
        : CanvasState).pending.any (fun p => p.key = a.key)) = true := by
      show (s.pending.any (fun p => p.key = a.key)) = true
      rw [hpend]
      simp
    rw [if_pos hcond]
  · unfold dragEnd handleNodeDeselection
    have hcond : (({ s with selected := s.selected.filter (· ≠ a.key) }
        : CanvasState).pending.any (fun p => p.key = a.key)) = true := by
      show (s.pending.any (fun p => p.key = a.key)) = true
      rw [hpend]
      simp
    rw [if_pos hcond]

/-- Witness for C9's amended statement: with `b1` pending and `c1` unselected,
clicking `c1` attempts the (successful) connect and clears the slot. -/
theorem C9_witness :
    (clickDown { scenarioBase with pending := some b1, selected := [0] }
        c1).pending = none :=
  ((C9_selection_machine { scenarioBase with pending := some b1, selected := [0] }
      b1 c1 rfl).1 (by decide) (by decide)).1

/-! ### Correctness of the topological sort (C4) -/

theorem decNeighbors_deg (ts : List NodeInst) (deg : Nat → Int)
    (q : List NodeInst) (k : Nat) :
    (decNeighbors ts deg q).1 k =
      deg k - (ts.countP (fun t => t.key = k) : Int) := by
  induction ts generalizing deg q with
  | nil => simp [decNeighbors]
  | cons t rest ih =>
      simp only [decNeighbors]
      rw [ih]
      by_cases hk : k = t.key
      · subst hk
        simp [List.countP_cons]
        omega
      · have : t.key = k ↔ False := by
          constructor
          · intro h; exact hk h.symm
          · intro h; exact h.elim
        simp [List.countP_cons, hk, this]

theorem decNeighbors_queue (ts : List NodeInst) (deg : Nat → Int)
    (q : List NodeInst) (hnd : (ts.map (·.key)).Nodup) :
    (decNeighbors ts deg q).2 = q ++ ts.filter (fun t => deg t.key = 1) := by
  induction ts generalizing deg q with
  | nil => simp [decNeighbors]
  | cons t rest ih =>
      simp only [List.map_cons, List.nodup_cons] at hnd
      obtain ⟨htk, hrest⟩ := hnd
      simp only [decNeighbors]
      rw [ih _ _ hrest]
      have hfc : rest.filter
            (fun r => (fun k => if k = t.key then deg t.key - 1 else deg k) r.key = 1) =
          rest.filter (fun r => deg r.key = 1) := by
        apply List.filter_congr
        intro r hr
        have : r.key ≠ t.key := by
          intro h
          exact htk (List.mem_map.mpr ⟨r, hr, h⟩)
        simp [this]
      rw [hfc]
      by_cases h1 : deg t.key = 1
      · rw [if_pos (by omega)]
        rw [List.filter_cons_of_pos (by simpa using h1)]
        simp
      · rw [if_neg (by omega)]
        rw [List.filter_cons_of_neg (by simpa using h1)]

theorem countP_or_split {α : Type} (l : List α) (p q r : α → Bool)
    (h : ∀ a ∈ l, (r a = true ↔ (p a = true ∨ q a = true)) ∧
        ¬(p a = true ∧ q a = true)) :
    l.countP r = l.countP p + l.countP q := by
  induction l with
  | nil => simp
  | cons a l ih =>
      have ha := h a (List.mem_cons_self a l)
      have hl := ih (fun x hx => h x (List.mem_cons_of_mem a hx))
      simp only [List.countP_cons]
      rcases hp : p a <;> rcases hq : q a <;> rcases hr : r a <;>
        simp [hp, hq, hr] at ha ⊢ <;> omega

theorem countP_eq_strengthen {α : Type} (l : List α) (p q : α → Bool)
    (himp : ∀ a ∈ l, q a = true → p a = true)
    (heq : l.countP p = l.countP q) :
    ∀ a ∈ l, p a = true → q a = true := by
  induction l with
  | nil => simp
  | cons a l ih =>
      have hmono : l.countP q ≤ l.countP p :=
        List.countP_mono_left (fun x hx => himp x (List.mem_cons_of_mem a hx))
      simp only [List.countP_cons] at heq
      intro x hx hpx
      rcases List.mem_cons.mp hx with rfl | hx'
      · by_cases hqx : q x = true
        · exact hqx
        · exfalso
          rw [hpx] at heq
          simp [hqx] at heq
          omega
      · have heq' : l.countP p = l.countP q := by
          by_cases hpa : p a = true
          · by_cases hqa : q a = true
            · simp [hpa, hqa] at heq; omega
            · exfalso
              simp [hpa, hqa] at heq
              omega
          · have hqa : ¬ q a = true := fun hqa => hpa (himp a (List.mem_cons_self a l) hqa)
            simp [hpa, hqa] at heq
            omega
        exact ih (fun y hy => himp y (List.mem_cons_of_mem a hy)) heq' x hx' hpx

theorem adjOf_keys_nodup (edges : List (NodeInst × NodeInst))
    (hpairs : (edges.map (fun e => (e.1.key, e.2.key))).Nodup) (c : NodeInst) :
    ((adjOf edges c).map (·.key)).Nodup := by
  unfold adjOf
  rw [List.map_map]
  have hsub : ((edges.filter (fun e => e.1.key = c.key)).map
      (fun e => (e.1.key, e.2.key))).Nodup :=
    ((List.filter_sublist edges).map (fun e => (e.1.key, e.2.key))).nodup hpairs
  have hall : ∀ p ∈ (edges.filter (fun e => e.1.key = c.key)).map
      (fun e => (e.1.key, e.2.key)), p.1 = c.key := by
    intro p hp
    obtain ⟨e, he, rfl⟩ := List.mem_map.mp hp
    exact of_decide_eq_true (List.mem_filter.mp he).2
  have : ((edges.filter (fun e => e.1.key = c.key)).map
      (fun e => (e.1.key, e.2.key))).map Prod.snd |>.Nodup := by
    apply hsub.map_on
    intro x hx y hy hxy
    have hx1 := hall x hx
    have hy1 := hall y hy
    exact Prod.ext (hx1.trans hy1.symm) hxy
  rw [List.map_map] at this
  exact this

theorem adjOf_countP (edges : List (NodeInst × NodeInst)) (c : NodeInst) (k : Nat) :
    (adjOf edges c).countP (fun t => t.key = k) =
      edges.countP (fun e => e.2.key = k && e.1.key = c.key) := by
  unfold adjOf
  rw [List.countP_map, List.countP_filter]
  rfl

theorem foldl_insKey_self (l acc : List NodeInst)
    (h : ((acc ++ l).map (·.key)).Nodup) : l.foldl insKey acc = acc ++ l := by
  induction l generalizing acc with
  | nil => simp
  | cons x l ih =>
      have hx : ¬ acc.any (fun k => k.key = x.key) = true := by
        intro hany
        obtain ⟨a, ha, hak⟩ := List.any_eq_true.mp hany
        have : x.key ∈ (acc.map (·.key)) := by
          exact List.mem_map.mpr ⟨a, ha, of_decide_eq_true hak⟩
        have hnd := h
        rw [List.map_append, List.nodup_append] at hnd
        exact hnd.2.2 this (by simp)
      have hstep : List.foldl insKey acc (x :: l) = List.foldl insKey (acc ++ [x]) l := by
        simp only [List.foldl_cons, insKey, hx]
        rw [if_neg (by simp [hx])]
      rw [hstep, ih (acc ++ [x]) (by simpa using h)]
      simp

theorem foldl_insKey_present (es : List (NodeInst × NodeInst))
    (ks : List NodeInst) (h : ∀ e ∈ es, e.2.key ∈ ks.map (·.key)) :
    es.foldl (fun acc e => insKey acc e.2) ks = ks := by
  induction es generalizing ks with
  | nil => rfl
  | cons e es ih =>
      have hmem := h e (List.mem_cons_self e es)
      obtain ⟨a, ha, hak⟩ := List.mem_map.mp hmem
      have hany : ks.any (fun k => k.key = e.2.key) = true :=
        List.any_eq_true.mpr ⟨a, ha, by simp [hak]⟩
      simp only [List.foldl_cons, insKey, hany, if_pos]
      exact ih ks (fun e' he' => h e' (List.mem_cons_of_mem e he'))

theorem inDegKeys_eq (nodes : List NodeInst) (edges : List (NodeInst × NodeInst))
    (hnd : (nodes.map (·.key)).Nodup)
    (htgt : ∀ e ∈ edges, e.2 ∈ nodes) :
    inDegKeys nodes edges = nodes := by
  unfold inDegKeys
  rw [foldl_insKey_self nodes [] (by simpa using hnd)]
  simp only [List.nil_append]
  exact foldl_insKey_present edges nodes
    (fun e he => List.mem_map.mpr ⟨e.2, htgt e he, rfl⟩)

theorem keylist_length_le (l nodes : List NodeInst)
    (_hnd : (nodes.map (·.key)).Nodup) (hl : (l.map (·.key)).Nodup)
    (hsub : ∀ x ∈ l, x ∈ nodes) : l.length ≤ nodes.length := by
  have hsub' : l.map (·.key) ⊆ nodes.map (·.key) := by
    intro k hk
    obtain ⟨x, hx, rfl⟩ := List.mem_map.mp hk
    exact List.mem_map.mpr ⟨x, hsub x hx, rfl⟩
  have := (List.subperm_of_subset hl hsub').length_le
  simpa using this

theorem countP_key_eq_count (ts : List NodeInst) (k : Nat) :
    ts.countP (fun t => t.key = k) = (ts.map (fun x => x.key)).count k := by
  rw [List.count_eq_countP, List.countP_map]
  apply List.countP_congr
  intro x hx
  simp [Function.comp]

theorem kahnLoop_invariant (nodes : List NodeInst)
    (edges : List (NodeInst × NodeInst))
    (hnd : (nodes.map (fun x => x.key)).Nodup)
    (hedge : ∀ e ∈ edges, e.1 ∈ nodes ∧ e.2 ∈ nodes)
    (hpairs : (edges.map (fun e => (e.1.key, e.2.key))).Nodup) :
    ∀ (fuel : Nat) (queue order : List NodeInst) (deg : Nat → Int),
      nodes.length ≤ fuel + order.length →
      (∀ x ∈ order ++ queue, x ∈ nodes) →
      (((order ++ queue).map (fun x => x.key)).Nodup) →
      (∀ k : Nat, deg k = (edges.countP (fun e => e.2.key = k) : Int) -
          (edges.countP (fun e => e.2.key = k ∧
            e.1.key ∈ order.map (fun x => x.key)) : Int)) →
      (∀ x ∈ queue, deg x.key = 0) →
      (∀ x ∈ order, deg x.key ≤ 0) →
      (∀ e ∈ edges, e.2.key ∈ order.map (fun x => x.key) →
          e.1.key ∈ order.map (fun x => x.key) ∧
          (order.map (fun x => x.key)).indexOf e.1.key <
            (order.map (fun x => x.key)).indexOf e.2.key) →
      (∀ x ∈ kahnLoop (adjOf edges) fuel queue deg order, x ∈ nodes) ∧
      ((kahnLoop (adjOf edges) fuel queue deg order).map (fun x => x.key)).Nodup ∧
      (∀ e ∈ edges,
        e.2.key ∈ (kahnLoop (adjOf edges) fuel queue deg order).map (fun x => x.key) →
        e.1.key ∈ (kahnLoop (adjOf edges) fuel queue deg order).map (fun x => x.key) ∧
        ((kahnLoop (adjOf edges) fuel queue deg order).map (fun x => x.key)).indexOf e.1.key <
          ((kahnLoop (adjOf edges) fuel queue deg order).map (fun x => x.key)).indexOf e.2.key) := by
  intro fuel
  induction fuel with
  | zero =>
      intro queue order deg hfuel hmem hnodup hdeg hq0 hle htopo
      cases queue with
      | nil =>
          have hR : kahnLoop (adjOf edges) 0 [] deg order = order := rfl
          rw [hR]
          exact ⟨fun x hx => hmem x (by simpa using hx), by simpa using hnodup, htopo⟩
      | cons c rest =>
          exfalso
          have hlen := keylist_length_le (order ++ c :: rest) nodes hnd hnodup hmem
          rw [List.length_append, List.length_cons] at hlen
          omega
  | succ fuel ih =>
      intro queue order deg hfuel hmem hnodup hdeg hq0 hle htopo
      cases queue with
      | nil =>
          have hR : kahnLoop (adjOf edges) (fuel + 1) [] deg order = order := rfl
          rw [hR]
          exact ⟨fun x hx => hmem x (by simpa using hx), by simpa using hnodup, htopo⟩
      | cons c rest =>
          have htsnd : ((adjOf edges c).map (fun x => x.key)).Nodup :=
            adjOf_keys_nodup edges hpairs c
          have hstep : kahnLoop (adjOf edges) (fuel + 1) (c :: rest) deg order =
              kahnLoop (adjOf edges) fuel
                (rest ++ (adjOf edges c).filter (fun t => deg t.key = 1))
                (decNeighbors (adjOf edges c) deg rest).1
                (order ++ [c]) := by
            show kahnLoop (adjOf edges) fuel
                (decNeighbors (adjOf edges c) deg rest).2
                (decNeighbors (adjOf edges c) deg rest).1 (order ++ [c]) = _
            rw [decNeighbors_queue _ _ _ htsnd]
          rw [hstep]
          have hcmem : c ∈ nodes := hmem c (by simp)
          have hdegc : deg c.key = 0 := hq0 c (by simp)
          have hkeysplit :
              ((order ++ c :: rest).map (fun x => x.key)).Nodup := hnodup
          have hOnodup : ((order.map (fun x => x.key)) ++
              (c.key :: rest.map (fun x => x.key))).Nodup := by
            simpa using hkeysplit
          have hcA : c.key ∉ order.map (fun x => x.key) := by
            rw [List.nodup_append] at hOnodup
            intro hmem'
            exact hOnodup.2.2 hmem' (by simp)
          have hcR : c.key ∉ rest.map (fun x => x.key) := by
            rw [List.nodup_append] at hOnodup
            exact (List.nodup_cons.mp hOnodup.2.1).1
          have hRA : ∀ k, k ∈ rest.map (fun x => x.key) →
              k ∉ order.map (fun x => x.key) := by
            rw [List.nodup_append] at hOnodup
            intro k hk hk'
            exact hOnodup.2.2 hk' (by simp [hk])
          have hproc : ∀ k : Nat, deg k = 0 → ∀ e ∈ edges, e.2.key = k →
              e.1.key ∈ order.map (fun x => x.key) := by
            intro k hk e he h2
            have hmono : edges.countP (fun e => e.2.key = k ∧
                  e.1.key ∈ order.map (fun x => x.key)) ≤
                edges.countP (fun e => e.2.key = k) := by
              apply List.countP_mono_left
              intro a _ ha
              simp only [decide_eq_true_eq] at ha ⊢
              exact ha.1
            have hdk := hdeg k
            rw [hk] at hdk
            have hcnt : edges.countP (fun e => e.2.key = k) =
                edges.countP (fun e => e.2.key = k ∧
                  e.1.key ∈ order.map (fun x => x.key)) := by
              omega
            have hstr := countP_eq_strengthen edges
              (fun e => e.2.key = k)
              (fun e => e.2.key = k ∧ e.1.key ∈ order.map (fun x => x.key))
              (fun a _ ha => by
                simp only [decide_eq_true_eq] at ha ⊢
                exact ha.1)
              hcnt e he (by simp [h2])
            simp only [decide_eq_true_eq] at hstr
            exact hstr.2
          have hdeg2 : ∀ k : Nat, (decNeighbors (adjOf edges c) deg rest).1 k =
              deg k - (edges.countP (fun e => e.2.key = k && e.1.key = c.key) : Int) := by
            intro k
            rw [decNeighbors_deg, adjOf_countP]
          have hprocsplit : ∀ k : Nat,
              edges.countP (fun e => e.2.key = k ∧
                e.1.key ∈ (order ++ [c]).map (fun x => x.key)) =
              edges.countP (fun e => e.2.key = k ∧
                e.1.key ∈ order.map (fun x => x.key)) +
              edges.countP (fun e => e.2.key = k && e.1.key = c.key) := by
            intro k
            apply countP_or_split
            intro a _
            constructor
            · constructor
              · intro hr
                simp only [decide_eq_true_eq, List.map_append, List.map_cons,
                  List.map_nil, List.mem_append, List.mem_singleton] at hr
                rcases hr.2 with h | h
                · left
                  simp only [decide_eq_true_eq]
                  exact ⟨hr.1, h⟩
                · right
                  simp only [Bool.and_eq_true, decide_eq_true_eq]
                  exact ⟨hr.1, h⟩
              · intro h
                rcases h with h | h
                · simp only [decide_eq_true_eq] at h
                  simp only [decide_eq_true_eq, List.map_append, List.map_cons,
                    List.map_nil, List.mem_append, List.mem_singleton]
                  exact ⟨h.1, Or.inl h.2⟩
                · simp only [Bool.and_eq_true, decide_eq_true_eq] at h
                  simp only [decide_eq_true_eq, List.map_append, List.map_cons,
                    List.map_nil, List.mem_append, List.mem_singleton]
                  exact ⟨h.1, Or.inr h.2⟩
            · rintro ⟨hp, hq⟩
              simp only [decide_eq_true_eq] at hp
              simp only [Bool.and_eq_true, decide_eq_true_eq] at hq
              exact hcA (hq.2 ▸ hp.2)
          have hdeg2' : ∀ k : Nat, (decNeighbors (adjOf edges c) deg rest).1 k =
              (edges.countP (fun e => e.2.key = k) : Int) -
              (edges.countP (fun e => e.2.key = k ∧
                e.1.key ∈ (order ++ [c]).map (fun x => x.key)) : Int) := by
            intro k
            rw [hdeg2 k, hdeg k, hprocsplit k]
            push_cast
            ring
          have hnewly : ∀ x ∈ (adjOf edges c).filter (fun t => deg t.key = 1),
              x ∈ nodes ∧ deg x.key = 1 := by
            intro x hx
            have hx' := List.mem_filter.mp hx
            have hxts : x ∈ adjOf edges c := hx'.1
            have hdx : deg x.key = 1 := by simpa using hx'.2
            unfold adjOf at hxts
            obtain ⟨e, he, rfl⟩ := List.mem_map.mp hxts
            exact ⟨(hedge e (List.mem_filter.mp he).1).2, hdx⟩
          have hmem2 : ∀ x ∈ (order ++ [c]) ++
              (rest ++ (adjOf edges c).filter (fun t => deg t.key = 1)),
              x ∈ nodes := by
            intro x hx
            simp only [List.mem_append, List.mem_singleton] at hx
            rcases hx with (hx | hx) | (hx | hx)
            · exact hmem x (List.mem_append.mpr (Or.inl hx))
            · subst hx
              exact hcmem
            · exact hmem x (by simp [hx])
            · exact (hnewly x hx).1
          have hnewnd : (((adjOf edges c).filter
              (fun t => deg t.key = 1)).map (fun x => x.key)).Nodup :=
            ((List.filter_sublist _).map _).nodup htsnd
          have hdisj : ∀ k ∈ ((order ++ c :: rest).map (fun x => x.key)),
              k ∉ (((adjOf edges c).filter
                (fun t => deg t.key = 1)).map (fun x => x.key)) := by
            intro k hk hknew
            obtain ⟨x, hx, rfl⟩ := List.mem_map.mp hknew
            have hdx := (hnewly x hx).2
            simp only [List.map_append, List.map_cons, List.mem_append,
              List.mem_cons] at hk
            rcases hk with h | h | h
            · obtain ⟨y, hy, hyk⟩ := List.mem_map.mp h
              have := hle y hy
              rw [hyk] at this
              omega
            · rw [h] at hdx
              omega
            · obtain ⟨y, hy, hyk⟩ := List.mem_map.mp h
              have := hq0 y (by simp [hy])
              rw [hyk] at this
              omega
          have hnodup2 : (((order ++ [c]) ++
              (rest ++ (adjOf edges c).filter (fun t => deg t.key = 1))).map
                (fun x => x.key)).Nodup := by
            have hre : (order ++ [c]) ++
                (rest ++ (adjOf edges c).filter (fun t => deg t.key = 1)) =
                (order ++ c :: rest) ++
                  (adjOf edges c).filter (fun t => deg t.key = 1) := by
              simp
            rw [hre, List.map_append, List.nodup_append]
            exact ⟨hkeysplit, hnewnd, fun a ha => hdisj a ha⟩
          have hq02 : ∀ x ∈ rest ++
              (adjOf edges c).filter (fun t => deg t.key = 1),
              (decNeighbors (adjOf edges c) deg rest).1 x.key = 0 := by
            intro x hx
            rcases List.mem_append.mp hx with hx | hx
            · have hdx : deg x.key = 0 := hq0 x (by simp [hx])
              have hcnt0 : edges.countP
                  (fun e => e.2.key = x.key && e.1.key = c.key) = 0 := by
                rw [List.countP_eq_zero]
                intro e he hpe
                simp only [Bool.and_eq_true, decide_eq_true_eq] at hpe
                have := hproc x.key hdx e he hpe.1
                rw [hpe.2] at this
                exact hcA this
              rw [hdeg2 x.key, hcnt0, hdx]
              simp
            · have hdx := (hnewly x hx).2
              have hxts : x ∈ adjOf edges c := (List.mem_filter.mp hx).1
              have hcnt1 : edges.countP
                  (fun e => e.2.key = x.key && e.1.key = c.key) = 1 := by
                rw [← adjOf_countP, countP_key_eq_count]
                exact List.count_eq_one_of_mem htsnd
                  (List.mem_map.mpr ⟨x, hxts, rfl⟩)
              rw [hdeg2 x.key, hcnt1, hdx]
              simp
          have hle2 : ∀ x ∈ order ++ [c],
              (decNeighbors (adjOf edges c) deg rest).1 x.key ≤ 0 := by
            intro x hx
            rw [hdeg2 x.key]
            rcases List.mem_append.mp hx with hx | hx
            · have := hle x hx
              omega
            · have hxc : x = c := by simpa using hx
              rw [hxc, hdegc]
              omega
          have htopo2 : ∀ e ∈ edges,
              e.2.key ∈ (order ++ [c]).map (fun x => x.key) →
              e.1.key ∈ (order ++ [c]).map (fun x => x.key) ∧
              ((order ++ [c]).map (fun x => x.key)).indexOf e.1.key <
                ((order ++ [c]).map (fun x => x.key)).indexOf e.2.key := by
            intro e he hmem'
            rw [List.map_append] at hmem' ⊢
            rcases List.mem_append.mp hmem' with h2 | h2
            · obtain ⟨h1, hidx⟩ := htopo e he h2
              refine ⟨List.mem_append_left _ h1, ?_⟩
              rw [List.indexOf_append_of_mem h1, List.indexOf_append_of_mem h2]
              exact hidx
            · have h2c : e.2.key = c.key := by simpa using h2
              have h1 := hproc c.key hdegc e he h2c
              refine ⟨List.mem_append_left _ h1, ?_⟩
              rw [List.indexOf_append_of_mem h1]
              have h2A : e.2.key ∉ order.map (fun x => x.key) := by
                rw [h2c]
                exact hcA
              rw [List.indexOf_append_of_not_mem h2A]
              have hsing : (([c].map (fun x => x.key)).indexOf e.2.key) = 0 := by
                simp [h2c]
              rw [hsing]
              have hlt := List.indexOf_lt_length.mpr h1
              simp only [List.length_map] at hlt ⊢
              omega
          have hfuel2 : nodes.length ≤ fuel + (order ++ [c]).length := by
            rw [List.length_append, List.length_singleton]
            omega
          exact ih (rest ++ (adjOf edges c).filter (fun t => deg t.key = 1))
            (order ++ [c]) (decNeighbors (adjOf edges c) deg rest).1
            hfuel2 hmem2 hnodup2 hdeg2' hq02 hle2 htopo2

/-- **C4.**  On every well-formed graph (distinct node identities, edges
between listed nodes, no duplicated key pair) whose Kahn sort covers all
nodes, the computed `executionOrder` is the Kahn order, a permutation of the
node list (each node exactly once) that places every node after all of its
in-graph predecessors; and the queue is seeded with exactly the in-degree-zero
nodes in node-creation order. -/
theorem C4_topological_order (nodes : List NodeInst)
    (edges : List (NodeInst × NodeInst))
    (hnd : (nodes.map (fun x => x.key)).Nodup)
    (hedge : ∀ e ∈ edges, e.1 ∈ nodes ∧ e.2 ∈ nodes)
    (hpairs : (edges.map (fun e => (e.1.key, e.2.key))).Nodup)
    (hcover : (kahnExecutionOrder nodes edges).length = nodes.length) :
    executionOrder nodes edges = kahnExecutionOrder nodes edges ∧
    List.Perm (kahnExecutionOrder nodes edges) nodes ∧
    (∀ e ∈ edges,
      e.1.key ∈ (kahnExecutionOrder nodes edges).map (fun x => x.key) ∧
      e.2.key ∈ (kahnExecutionOrder nodes edges).map (fun x => x.key) ∧
      ((kahnExecutionOrder nodes edges).map (fun x => x.key)).indexOf e.1.key <
        ((kahnExecutionOrder nodes edges).map (fun x => x.key)).indexOf e.2.key) ∧
    ((inDegKeys nodes edges).filter (fun n => initInDeg edges n.key = 0) =
      nodes.filter (fun n => initInDeg edges n.key = 0)) := by
  have hkeys : inDegKeys nodes edges = nodes :=
    inDegKeys_eq nodes edges hnd (fun e he => (hedge e he).2)
  have hko : kahnExecutionOrder nodes edges =
      kahnLoop (adjOf edges) nodes.length
        (nodes.filter (fun n => initInDeg edges n.key = 0))
        (initInDeg edges) [] := by
    unfold kahnExecutionOrder
    rw [hkeys]
  have hq0sub : ∀ x ∈ nodes.filter (fun n => initInDeg edges n.key = 0),
      x ∈ nodes := fun x hx => (List.mem_filter.mp hx).1
  have hinit := kahnLoop_invariant nodes edges hnd hedge hpairs nodes.length
      (nodes.filter (fun n => initInDeg edges n.key = 0)) [] (initInDeg edges)
      (by simp)
      (fun x hx => hq0sub x hx)
      (((List.filter_sublist nodes).map (fun x => x.key)).nodup hnd)
      (by
        intro k
        have h0 : edges.countP (fun e => e.2.key = k ∧
            e.1.key ∈ ([] : List NodeInst).map (fun x => x.key)) = 0 := by
          rw [List.countP_eq_zero]
          intro a _
          simp
        rw [h0]
        unfold initInDeg
        rw [List.countP_eq_length_filter]
        omega)
      (by
        intro x hx
        have := (List.mem_filter.mp hx).2
        simpa using this)
      (by intro x hx; simp at hx)
      (by intro e he h2; simp at h2)
  obtain ⟨hsub, hnodupR, htopoR⟩ := hinit
  rw [← hko] at hsub hnodupR htopoR
  have hperm : List.Perm (kahnExecutionOrder nodes edges) nodes := by
    have hnodupL : (kahnExecutionOrder nodes edges).Nodup :=
      List.Nodup.of_map _ hnodupR
    have hsp : List.Subperm (kahnExecutionOrder nodes edges) nodes :=
      List.subperm_of_subset hnodupL (fun x hx => hsub x hx)
    exact hsp.perm_of_length_le (by omega)
  refine ⟨?_, hperm, ?_, ?_⟩
  · unfold executionOrder
    rw [if_neg (not_not_intro hcover)]
  · intro e he
    have h2mem : e.2.key ∈ (kahnExecutionOrder nodes edges).map
        (fun x => x.key) := by
      apply (hperm.map (fun x => x.key)).mem_iff.mpr
      exact List.mem_map.mpr ⟨e.2, (hedge e he).2, rfl⟩
    obtain ⟨h1mem, hidx⟩ := htopoR e he h2mem
    exact ⟨h1mem, h2mem, hidx⟩
  · rw [hkeys]

/-- Witness for C4: Scenario A's DAG `b1 → c1 → v1`, whose execution order is
exactly `[b1, c1, v1]`. -/
theorem C4_witness :
    (kahnExecutionOrder [b1, c1, v1] [(b1, c1), (c1, v1)]).length =
      ([b1, c1, v1] : List NodeInst).length ∧
    executionOrder [b1, c1, v1] [(b1, c1), (c1, v1)] = [b1, c1, v1] ∧
    List.Perm (kahnExecutionOrder [b1, c1, v1] [(b1, c1), (c1, v1)])
      [b1, c1, v1] := by
  refine ⟨by decide, by decide, ?_⟩
  exact (C4_topological_order [b1, c1, v1] [(b1, c1), (c1, v1)]
    (by decide) (by decide) (by decide) (by decide)).2.1
